import Mathlib

/-!
Shallow embedding of src/html_to_json_converter.py, class HTMLToJSONConverter.
Python strings are modelled as Lean String values; Python dicts that the
program builds are modelled as insertion-ordered association lists with
replace-in-place update, matching CPython dict semantics.  External
collaborators of the script (BeautifulSoup parsing and serialization,
pypandoc, the regex engine behind re.sub) are oracle parameters of the
pipeline, while every piece of control flow written in the Python file
itself is translated directly.  The langchain MarkdownHeaderTextSplitter is
modelled from the specification of the Section Chunker (spec section 4.3),
since its code is not part of this repository.
-/

namespace HtmlToJson

/-- Whitespace characters stripped by Python str.strip with no argument
(ASCII subset: space, tab, newline, carriage return, vertical tab, form feed). -/
def pyIsSpace (c : Char) : Bool :=
  c = ' ' || c = '\t' || c = '\n' || c = '\r' || c = Char.ofNat 11 || c = Char.ofNat 12

/-- Model of Python str.strip with no argument: drop whitespace at both ends. -/
def strip (s : String) : String :=
  String.mk (((s.data.dropWhile pyIsSpace).reverse.dropWhile pyIsSpace).reverse)

/-- Model of Python str.startswith. -/
def pyStartsWith (s p : String) : Bool :=
  p.data.isPrefixOf s.data

/-- Split a character list at every newline character; total and never
returns the empty list (an empty input gives one empty line). -/
def splitOnNl : List Char → List (List Char)
  | [] => [[]]
  | c :: rest =>
    if c = '\n' then [] :: splitOnNl rest
    else
      match splitOnNl rest with
      | l :: ls => (c :: l) :: ls
      | [] => [[c]]

/-- Inverse of splitOnNl: interleave the lines with newline characters. -/
def joinNl : List (List Char) → List Char
  | [] => []
  | [l] => l
  | l :: l2 :: ls => l ++ '\n' :: joinNl (l2 :: ls)

/-- Lines of a string, in document order. -/
def linesOf (s : String) : List String :=
  (splitOnNl s.data).map String.mk

/-- Join lines back with newline separators. -/
def joinLines (ls : List String) : String :=
  String.mk (joinNl (ls.map String.data))

/-- Index of the last dot in a character list, when one exists. -/
def lastDotIdx : List Char → Option Nat
  | [] => none
  | c :: rest =>
    match lastDotIdx rest with
    | some i => some (i + 1)
    | none => if c = '.' then some 0 else none

/-- Model of pathlib Path.stem: the file name with its last suffix removed;
the suffix is nonempty only when the last dot is neither the first nor the
last character of the name. -/
def stem (name : String) : String :=
  let cs := name.data
  match lastDotIdx cs with
  | some i => if 0 < i ∧ i + 1 < cs.length then String.mk (cs.take i) else name
  | none => name

/-- First value bound to a key in an association list (Python dict read). -/
def lookupKey {α : Type} (k : String) : List (String × α) → Option α
  | [] => none
  | kv :: rest => if kv.1 = k then some kv.2 else lookupKey k rest

/-- JSON-like scalar values appearing in a record metadata dict. -/
inductive JValue : Type
  | str (s : String)
  | num (n : Nat)
deriving DecidableEq, Repr

/-- CPython dict update for one key: replace the value in place when the key
is present (its position is preserved), otherwise append the binding. -/
def dictInsert (d : List (String × JValue)) (k : String) (v : JValue) :
    List (String × JValue) :=
  match d with
  | [] => [(k, v)]
  | kv :: rest => if kv.1 = k then (k, v) :: rest else kv :: dictInsert rest k v

/-- Parsed HTML node, the image of what BeautifulSoup exposes to this
script: elements with a tag name, attributes and children, text and
comment nodes. -/
inductive Node : Type
  | element (tag : String) (attrs : List (String × String)) (children : List Node)
  | text (s : String)
  | comment (s : String)

/-- A parsed document is a forest of nodes. -/
def Soup : Type := List Node

/-- Tags decomposed by remove_common_noise (line 117 of the source). -/
def noise_tags : List String :=
  ["script", "style", "noscript", "iframe", "object", "embed"]

mutual

/-- Structural pass on one node: decompose noise elements and extract
comments, keep everything else and recurse into children. -/
def removeNoiseNode : Node → Option Node
  | Node.element tag attrs children =>
    if noise_tags.contains tag then none
    else some (Node.element tag attrs (removeNoiseForest children))
  | Node.text s => some (Node.text s)
  | Node.comment _ => none

/-- Structural pass on a forest of nodes, preserving order. -/
def removeNoiseForest : List Node → List Node
  | [] => []
  | n :: ns =>
    match removeNoiseNode n with
    | some m => m :: removeNoiseForest ns
    | none => removeNoiseForest ns

end

/-- Embedding of HTMLToJSONConverter.remove_common_noise (lines 114 to 129):
remove every script, style, noscript, iframe, object and embed element and
every comment node, at any depth. -/
def remove_common_noise (soup : Soup) : Soup :=
  removeNoiseForest soup

/-- Attribute read on a node (BeautifulSoup tag.get). -/
def Node.attr : Node → String → Option String
  | Node.element _ attrs _, k => lookupKey k attrs
  | _, _ => none

mutual

/-- First element node satisfying a tag-and-attributes predicate, in
document preorder; text and comment nodes never match (BeautifulSoup find). -/
def findNode (p : String → List (String × String) → Bool) : Node → Option Node
  | Node.element tag attrs children =>
    if p tag attrs then some (Node.element tag attrs children)
    else findForest p children
  | Node.text _ => none
  | Node.comment _ => none

/-- Preorder search over a forest of nodes. -/
def findForest (p : String → List (String × String) → Bool) :
    List Node → Option Node
  | [] => none
  | n :: ns =>
    match findNode p n with
    | some m => some m
    | none => findForest p ns

end

mutual

/-- Href values of anchor elements that carry an href attribute, in document
preorder (BeautifulSoup find_all with tag a and href=True). -/
def anchorHrefsNode : Node → List String
  | Node.element tag attrs children =>
    (if tag = "a" then
      match lookupKey ("href") attrs with
      | some h => [h]
      | none => []
    else []) ++ anchorHrefsForest children
  | Node.text _ => []
  | Node.comment _ => []

/-- Anchor href collection over a forest. -/
def anchorHrefsForest : List Node → List String
  | [] => []
  | n :: ns => anchorHrefsNode n ++ anchorHrefsForest ns

end

/-- Characters allowed after the first one in a URL scheme. -/
def isSchemeChar (c : Char) : Bool :=
  c.isAlphanum || c = '+' || c = '-' || c = '.'

/-- Split a character list at its first colon, when one exists. -/
def splitColon : List Char → Option (List Char × List Char)
  | [] => none
  | ':' :: rest => some ([], rest)
  | c :: rest =>
    match splitColon rest with
    | some p => some (c :: p.1, p.2)
    | none => none

/-- Model of urllib.parse.urlparse restricted to the two fields the script
reads: the lowercased scheme and the network location. -/
def schemeNetloc (url : String) : String × String :=
  let cs := url.data
  let sr : List Char × List Char :=
    match splitColon cs with
    | some p =>
      if p.1 ≠ [] ∧ (p.1.headD 'a').isAlpha = true ∧ p.1.all isSchemeChar = true then
        (p.1.map Char.toLower, p.2)
      else ([], cs)
    | none => ([], cs)
  let netloc : List Char :=
    match sr.2 with
    | '/' :: '/' :: r => r.takeWhile (fun c => ¬ (c = '/' ∨ c = '?' ∨ c = '#'))
    | _ => []
  (String.mk sr.1, String.mk netloc)

/-- Predicate for soup.find with tag link and rel equal to canonical. -/
def isCanonicalLink (tag : String) (attrs : List (String × String)) : Bool :=
  tag = "link" && lookupKey ("rel") attrs = some ("canonical")

/-- Predicate for soup.find with tag meta and property equal to og:url. -/
def isOgUrlMeta (tag : String) (attrs : List (String × String)) : Bool :=
  tag = "meta" && lookupKey ("property") attrs = some ("og:url")

/-- The anchor loop of extract_page_url (lines 106 to 111): return
scheme://netloc of the first href that starts with http, else the empty
string. -/
def fromAnchors : List String → String
  | [] => ""
  | h :: rest =>
    if pyStartsWith h ("http") then
      (schemeNetloc h).1 ++ "://" ++ (schemeNetloc h).2
    else fromAnchors rest

/-- Embedding of HTMLToJSONConverter.extract_page_url (lines 91 to 112)
after parsing: canonical link href when truthy, else og:url meta content
when truthy, else the anchor scan, else the empty string. -/
def extract_page_url_soup (doc : Soup) : String :=
  let step3 : String := fromAnchors (anchorHrefsForest doc)
  let step2 : String :=
    match (findForest isOgUrlMeta doc).bind (fun n => n.attr ("content")) with
    | some c => if c ≠ "" then c else step3
    | none => step3
  match (findForest isCanonicalLink doc).bind (fun n => n.attr ("href")) with
  | some h => if h ≠ "" then h else step2
  | none => step2

/-- Chunk of structured text paired with its accumulated heading path,
mirroring the langchain Document values the script receives from the
splitter: page_content holds the text, metadata the heading path. -/
structure Document : Type where
  page_content : String
  metadata : List (String × String)
deriving DecidableEq, Repr

/-- Number of leading hash characters of a line. -/
def countHashes : List Char → Nat
  | [] => 0
  | c :: rest => if c = '#' then countHashes rest + 1 else 0

/-- Modelled from the spec: heading recognition of the external
MarkdownHeaderTextSplitter, whose code is not in this repository.  A line is
a heading of level L (1 to 6) when it starts with L hash marks followed by a
space; the heading text is the remainder, stripped (spec section 4.3). -/
def headingOf (line : String) : Option (Nat × String) :=
  let cs := line.data
  let c := countHashes cs
  if 1 ≤ c ∧ c ≤ 6 then
    match cs.drop c with
    | ' ' :: rest => some (c, strip (String.mk rest))
    | _ => none
  else none

/-- Metadata key used for a heading of a given level, as configured by
headers_to_split_on (lines 190 to 197 of the source). -/
def headerKey (j : Nat) : String :=
  "Header " ++ toString j

/-- Keys of all heading levels at or below level L in the outline, that is
of all levels numerically at least L. -/
def deepKeys (L : Nat) : List String :=
  ((List.range 7).filter (fun j => decide (L ≤ j))).map headerKey

/-- Modelled from the spec: heading-path update of the external splitter.
A new heading at level L replaces any previously recorded heading at level
at least L and leaves shallower levels untouched (spec section 4.3). -/
def updatePath (path : List (String × String)) (L : Nat) (t : String) :
    List (String × String) :=
  (path.filter (fun kv => ! decide (kv.1 ∈ deepKeys L))) ++ [(headerKey L, t)]

/-- State of the line scan of the splitter model: lines of the section being
built, current heading path, and completed sections. -/
structure SplitState : Type where
  cur : List String
  path : List (String × String)
  acc : List Document
deriving DecidableEq, Repr

/-- Close the section being built, emitting it only when it has at least one
line. -/
def closeState (st : SplitState) : List Document :=
  if st.cur.isEmpty then st.acc else st.acc ++ [⟨joinLines st.cur, st.path⟩]

/-- One line of the splitter scan: a heading line closes the current section
under the heading path in force before it, updates the path, and starts a
new section that retains the heading line; any other line is appended to the
current section. -/
def splitStep (st : SplitState) (line : String) : SplitState :=
  match headingOf line with
  | some lt =>
    { cur := [line], path := updatePath st.path lt.1 lt.2, acc := closeState st }
  | none => { st with cur := st.cur ++ [line] }

/-- Modelled from the spec: split_text of the external
MarkdownHeaderTextSplitter with strip_headers set to False, whose code is
not in this repository.  The text is split at heading lines of levels 1 to
6, each heading line is retained in the section it introduces, the heading
path accumulates with level-scoped replacement, and a text with no heading
becomes one section with an empty heading path (spec section 4.3). -/
def splitText (s : String) : List Document :=
  closeState ((linesOf s).foldl splitStep ⟨[], [], []⟩)

/-- Flags the script passes to re.sub (line 135 of the source). -/
inductive ReFlag : Type
  | MULTILINE
  | DOTALL
deriving DecidableEq, Repr

/-- Oracle for the regex engine behind re.sub with empty replacement:
given a pattern, flags and a text it returns the substituted text, or none
when the pattern does not compile (re.error). -/
def ReSub : Type :=
  String → List ReFlag → String → Option String

/-- Flag list used by the script: re.MULTILINE together with re.DOTALL. -/
def reFlags : List ReFlag :=
  [ReFlag.MULTILINE, ReFlag.DOTALL]

/-- Embedding of HTMLToJSONConverter.remove_pattern_noise (lines 131 to
142): fold the patterns in file order over the text, substituting each with
the empty string; a pattern rejected by the engine is skipped and leaves
the text of that step unchanged. -/
def remove_pattern_noise (re_sub : ReSub) (patterns : List String)
    (html_content : String) : String :=
  patterns.foldl
    (fun acc p =>
      match re_sub p reFlags acc with
      | some t => t
      | none => acc)
    html_content

/-- Final output unit written to the JSON array (lines 216 to 225). -/
structure DocumentRecord : Type where
  id : String
  content : String
  metadata : List (String × JValue)
deriving DecidableEq, Repr

/-- The literal part of the metadata dict of one record: source, url and
section_id, in that insertion order. -/
def metaBase (source url : String) (section_id : Nat) : List (String × JValue) :=
  [("source", JValue.str source), ("url", JValue.str url),
   ("section_id", JValue.num section_id)]

/-- Metadata dict of one record: the literal base updated with every
heading-path binding in order, later writes replacing earlier values in
place (Python double-star merge into a dict literal). -/
def mergeMeta (source url : String) (section_id : Nat)
    (hp : List (String × String)) : List (String × JValue) :=
  hp.foldl (fun d kv => dictInsert d kv.1 (JValue.str kv.2))
    (metaBase source url section_id)

/-- One record of the assembly loop body (lines 216 to 225). -/
def mkRecord (doc : Document) (url filename : String) (i : Nat) : DocumentRecord :=
  { id := filename ++ "_" ++ toString i
    content := strip doc.page_content
    metadata := mergeMeta filename url i doc.metadata }

/-- The enumerate loop of markdown_to_json (lines 214 to 227), with the
running index made explicit. -/
def assembleFrom (docs : List Document) (url filename : String) (i : Nat) :
    List DocumentRecord :=
  match docs with
  | [] => []
  | d :: rest => mkRecord d url filename i :: assembleFrom rest url filename (i + 1)

/-- Embedding of HTMLToJSONConverter.markdown_to_json (lines 187 to 228),
taking the outcome of the splitter call as an argument: when the splitter
raised, the whole markdown text becomes a single Document with empty
metadata (lines 207 to 211), then every Document is assembled into a
DocumentRecord. -/
def markdown_to_json (splitRes : Except String (List Document))
    (markdown_content url filename : String) : List DocumentRecord :=
  let docs :=
    match splitRes with
    | Except.ok ds => ds
    | Except.error _ => [⟨markdown_content, []⟩]
  assembleFrom docs url filename 0

/-- Oracles for the external collaborators of the script: parse is
BeautifulSoup with the html.parser builder, render is str applied to a
soup, pandoc is pypandoc.convert_text, simple_md is the fallback
_simple_html_to_markdown (repo code exercised by no claim, abstracted
together with the BeautifulSoup mutation it relies on), re_sub is the re
module engine. -/
structure Env : Type where
  parse : String → Except String Soup
  render : Soup → String
  pandoc : String → Except String String
  simple_md : String → String
  re_sub : ReSub

/-- Embedding of HTMLToJSONConverter.extract_page_url (lines 91 to 112):
parse, then apply the three extraction strategies; a parse exception
propagates to the caller. -/
def extract_page_url (env : Env) (html_content : String) : Except String String :=
  (env.parse html_content).map extract_page_url_soup

/-- The Noise Filter as the script composes it inside process_html_file
(lines 243 to 248): parse, structural pass, serialize, pattern pass; a
parse exception propagates to the caller. -/
def noise_filter (env : Env) (patterns : List String) (html_content : String) :
    Except String String :=
  (env.parse html_content).map
    (fun soup =>
      remove_pattern_noise env.re_sub patterns (env.render (remove_common_noise soup)))

/-- Embedding of HTMLToJSONConverter.html_to_markdown (lines 144 to 159):
pandoc, degrading to the simple converter when pandoc raises. -/
def html_to_markdown (env : Env) (html_content : String) : String :=
  match env.pandoc html_content with
  | Except.ok md => md
  | Except.error _ => env.simple_md html_content

/-- One discovered input file: its name and the outcome of reading it,
where an error models an I/O exception. -/
structure HFile : Type where
  name : String
  read : Except String String

/-- Body of the try block of process_html_file (lines 234 to 257): read,
extract the URL from the raw content, run the Noise Filter, convert to
markdown, split and assemble. -/
def process_result (env : Env) (patterns : List String) (file : HFile) :
    Except String (List DocumentRecord) :=
  match file.read with
  | Except.error e => Except.error e
  | Except.ok html_content =>
    match extract_page_url env html_content with
    | Except.error e => Except.error e
    | Except.ok url =>
      match noise_filter env patterns html_content with
      | Except.error e => Except.error e
      | Except.ok clean_html =>
        let markdown_content := html_to_markdown env clean_html
        Except.ok (markdown_to_json (Except.ok (splitText markdown_content))
          markdown_content url (stem file.name))

/-- Embedding of HTMLToJSONConverter.process_html_file (lines 230 to 261):
any exception inside the per-file pipeline is caught and the file yields
zero records. -/
def process_html_file (env : Env) (patterns : List String) (file : HFile) :
    List DocumentRecord :=
  match process_result env patterns file with
  | Except.ok docs => docs
  | Except.error _ => []

/-- The accumulation loop of convert_all (lines 273 to 277). -/
def allDocuments (env : Env) (patterns : List String) (files : List HFile) :
    List DocumentRecord :=
  files.foldl (fun acc f => acc ++ process_html_file env patterns f) []

/-- Arguments the script passes to json.dump for the single output file
(lines 281 to 282): UTF-8 encoding, ensure_ascii disabled, indent 2. -/
structure DumpArgs : Type where
  encoding : String
  ensure_ascii : Bool
  indent : Nat
deriving DecidableEq, Repr

/-- Embedding of HTMLToJSONConverter.convert_all (lines 263 to 287): with
no discovered file the run stops early and writes nothing; otherwise every
file is processed in discovery order and the concatenated records are
written once, with the dump arguments of the source. -/
def convert_all (env : Env) (patterns : List String) (files : List HFile) :
    Option (List DocumentRecord × DumpArgs) :=
  if files.isEmpty then none
  else some (allDocuments env patterns files, ⟨"utf-8", false, 2⟩)

/-! Helper lemmas about the string and dictionary models. -/

lemma splitOnNl_ne_nil (cs : List Char) : splitOnNl cs ≠ [] := by
  cases cs with
  | nil => simp [splitOnNl]
  | cons c rest =>
    by_cases hc : c = '\n'
    · simp [splitOnNl, hc]
    · simp only [splitOnNl, if_neg hc]
      cases splitOnNl rest <;> simp

lemma joinNl_cons_cons (c : Char) (l : List Char) (t : List (List Char)) :
    joinNl ((c :: l) :: t) = c :: joinNl (l :: t) := by
  cases t <;> simp [joinNl]

lemma joinNl_splitOnNl (cs : List Char) : joinNl (splitOnNl cs) = cs := by
  induction cs with
  | nil => rfl
  | cons c rest ih =>
    by_cases hc : c = '\n'
    · subst hc
      simp only [splitOnNl, if_pos rfl]
      cases hr : splitOnNl rest with
      | nil => exact absurd hr (splitOnNl_ne_nil rest)
      | cons l ls =>
        rw [hr] at ih
        calc joinNl ([] :: l :: ls) = '\n' :: joinNl (l :: ls) := by simp [joinNl]
          _ = '\n' :: rest := by rw [ih]
    · simp only [splitOnNl, if_neg hc]
      cases hr : splitOnNl rest with
      | nil => exact absurd hr (splitOnNl_ne_nil rest)
      | cons l ls =>
        rw [hr] at ih
        rw [joinNl_cons_cons, ih]

lemma mk_data (s : String) : String.mk s.data = s := by
  cases s
  rfl

lemma joinLines_linesOf (s : String) : joinLines (linesOf s) = s := by
  unfold joinLines linesOf
  rw [List.map_map]
  have h1 : (String.data ∘ String.mk) = id := rfl
  rw [h1, List.map_id, joinNl_splitOnNl, mk_data]

lemma linesOf_ne_nil (s : String) : linesOf s ≠ [] := by
  unfold linesOf
  intro h
  exact splitOnNl_ne_nil s.data (List.map_eq_nil_iff.mp h)

lemma lookupKey_append {α : Type} (k : String) (a b : List (String × α)) :
    lookupKey k (a ++ b) =
      match lookupKey k a with
      | some v => some v
      | none => lookupKey k b := by
  induction a with
  | nil => simp [lookupKey]
  | cons kv rest ih =>
    by_cases h : kv.1 = k
    · simp [lookupKey, h]
    · simp [lookupKey, h, ih]

lemma lookupKey_filter_none {α : Type} (k : String) (l : List (String × α))
    (p : String × α → Bool) (hp : ∀ kv ∈ l, kv.1 = k → p kv = false) :
    lookupKey k (l.filter p) = none := by
  induction l with
  | nil => simp [lookupKey]
  | cons kv rest ih =>
    have ihr := ih (fun x hx => hp x (List.mem_cons_of_mem kv hx))
    by_cases h : kv.1 = k
    · rw [List.filter_cons, hp kv (List.mem_cons_self kv rest) h]
      exact ihr
    · rw [List.filter_cons]
      cases hpkv : p kv with
      | true => simpa [lookupKey, h] using ihr
      | false => simpa using ihr

lemma lookupKey_filter_keep {α : Type} (k : String) (l : List (String × α))
    (p : String × α → Bool) (hp : ∀ kv ∈ l, kv.1 = k → p kv = true) :
    lookupKey k (l.filter p) = lookupKey k l := by
  induction l with
  | nil => simp
  | cons kv rest ih =>
    have ihr := ih (fun x hx => hp x (List.mem_cons_of_mem kv hx))
    by_cases h : kv.1 = k
    · rw [List.filter_cons, hp kv (List.mem_cons_self kv rest) h]
      simp [lookupKey, h]
    · rw [List.filter_cons]
      cases hpkv : p kv with
      | true => simpa [lookupKey, h] using ihr
      | false => simpa [lookupKey, h] using ihr

lemma lookupKey_dictInsert_ne (d : List (String × JValue)) (k k0 : String)
    (v : JValue) (h : k ≠ k0) :
    lookupKey k0 (dictInsert d k v) = lookupKey k0 d := by
  induction d with
  | nil => simp [dictInsert, lookupKey, h]
  | cons kv rest ih =>
    by_cases hk : kv.1 = k
    · simp [dictInsert, if_pos hk, lookupKey, h, hk]
    · simp only [dictInsert, if_neg hk]
      by_cases h0 : kv.1 = k0
      · simp [lookupKey, h0]
      · simp [lookupKey, h0, ih]

/-! Helper lemmas about the heading keys and path updates. -/

lemma headerKey_inj : ∀ j < 7, ∀ k < 7, j ≠ k → headerKey j ≠ headerKey k := by
  decide

lemma headerKey_ne_url : ∀ j < 7, headerKey j ≠ "url" := by
  decide

lemma mem_deepKeys {L j : Nat} (hj : j < 7) (hL : L ≤ j) :
    headerKey j ∈ deepKeys L := by
  unfold deepKeys
  exact List.mem_map_of_mem headerKey
    (List.mem_filter.mpr ⟨List.mem_range.mpr hj, by simpa using hL⟩)

lemma not_mem_deepKeys {L j : Nat} (hj : j < 7) (hL : j < L) :
    headerKey j ∉ deepKeys L := by
  unfold deepKeys
  intro h
  rcases List.mem_map.mp h with ⟨x, hx, hxe⟩
  rcases List.mem_filter.mp hx with ⟨hxr, hxL⟩
  have hx7 : x < 7 := List.mem_range.mp hxr
  have hLx : L ≤ x := by simpa using hxL
  exact headerKey_inj x hx7 j hj (by omega) hxe

lemma lookupKey_updatePath_deep (path : List (String × String)) (L t j)
    (hj7 : j < 7) (hLj : L < j) :
    lookupKey (headerKey j) (updatePath path L t) = none := by
  unfold updatePath
  rw [lookupKey_append]
  have hfilter : lookupKey (headerKey j)
      (path.filter (fun kv => ! decide (kv.1 ∈ deepKeys L))) = none := by
    apply lookupKey_filter_none
    intro kv _ hkv
    rw [hkv]
    simp [mem_deepKeys hj7 (Nat.le_of_lt hLj)]
  rw [hfilter]
  have hne : headerKey L ≠ headerKey j :=
    headerKey_inj L (by omega) j hj7 (by omega)
  simp [lookupKey, hne]

lemma lookupKey_updatePath_shallow (path : List (String × String)) (L t j)
    (hL7 : L < 7) (hjL : j < L) :
    lookupKey (headerKey j) (updatePath path L t) = lookupKey (headerKey j) path := by
  unfold updatePath
  rw [lookupKey_append]
  have hkeep : lookupKey (headerKey j)
      (path.filter (fun kv => ! decide (kv.1 ∈ deepKeys L))) =
      lookupKey (headerKey j) path := by
    apply lookupKey_filter_keep
    intro kv _ hkv
    rw [hkv]
    simp [not_mem_deepKeys (by omega : j < 7) hjL]
  rw [hkeep]
  have hne : headerKey L ≠ headerKey j :=
    headerKey_inj L hL7 j (by omega) (by omega)
  cases hpath : lookupKey (headerKey j) path with
  | some v => simp
  | none => simp [lookupKey, hne]

/-! Helper lemmas about the splitter scan. -/

lemma splitStep_cur_ne (st : SplitState) (line : String) :
    (splitStep st line).cur ≠ [] := by
  unfold splitStep
  cases headingOf line <;> simp

lemma foldl_splitStep_cur_ne :
    ∀ (lines : List String) (st : SplitState),
      st.cur ≠ [] ∨ lines ≠ [] → (lines.foldl splitStep st).cur ≠ [] := by
  intro lines
  induction lines with
  | nil =>
    intro st h
    rcases h with h | h
    · simpa using h
    · exact absurd rfl h
  | cons l ls ih =>
    intro st _
    rw [List.foldl_cons]
    exact ih (splitStep st l) (Or.inl (splitStep_cur_ne st l))

lemma splitText_ne_nil (s : String) : splitText s ≠ [] := by
  unfold splitText closeState
  have hcur := foldl_splitStep_cur_ne (linesOf s) ⟨[], [], []⟩
    (Or.inr (linesOf_ne_nil s))
  rw [if_neg (by simpa using hcur)]
  simp

lemma foldl_splitStep_no_heading :
    ∀ (lines : List String) (st : SplitState),
      (∀ l ∈ lines, headingOf l = none) →
      lines.foldl splitStep st = ⟨st.cur ++ lines, st.path, st.acc⟩ := by
  intro lines
  induction lines with
  | nil => intro st _; simp
  | cons l ls ih =>
    intro st h
    rw [List.foldl_cons]
    have hst : splitStep st l = ⟨st.cur ++ [l], st.path, st.acc⟩ := by
      unfold splitStep
      rw [h l (List.mem_cons_self l ls)]
    rw [hst, ih _ (fun x hx => h x (List.mem_cons_of_mem l hx))]
    simp

lemma splitText_no_heading (s : String)
    (h : ∀ line ∈ linesOf s, headingOf line = none) :
    splitText s = [⟨s, []⟩] := by
  unfold splitText
  rw [foldl_splitStep_no_heading (linesOf s) ⟨[], [], []⟩ h]
  unfold closeState
  rw [if_neg (by simpa using linesOf_ne_nil s)]
  simp [joinLines_linesOf]

/-- Every key of a heading path produced by the splitter is a heading key
of a level between 1 and 6. -/
def headerKeyed (path : List (String × String)) : Prop :=
  ∀ kv ∈ path, ∃ j, 1 ≤ j ∧ j < 7 ∧ kv.1 = headerKey j

lemma headingOf_bounds {line : String} {L : Nat} {t : String}
    (h : headingOf line = some (L, t)) : 1 ≤ L ∧ L < 7 := by
  unfold headingOf at h
  by_cases hc : 1 ≤ countHashes line.data ∧ countHashes line.data ≤ 6
  · simp only [if_pos hc] at h
    rcases hm : line.data.drop (countHashes line.data) with _ | ⟨c, rest⟩
    · rw [hm] at h
      simp at h
    · rw [hm] at h
      by_cases hsp : c = ' '
      · subst hsp
        simp at h
        omega
      · rcases hm2 : c with _
        simp [hsp] at h
  · simp only [if_neg hc] at h
    exact absurd h (by simp)

lemma headerKeyed_updatePath {path : List (String × String)} {L : Nat}
    (t : String) (h : headerKeyed path) (h1 : 1 ≤ L) (h7 : L < 7) :
    headerKeyed (updatePath path L t) := by
  intro kv hkv
  unfold updatePath at hkv
  rcases List.mem_append.mp hkv with hin | hin
  · exact h kv (List.mem_of_mem_filter hin)
  · have : kv = (headerKey L, t) := by simpa using hin
    exact ⟨L, h1, h7, by rw [this]⟩

/-- Invariant of the splitter scan: the current path and the path of every
completed section use only heading keys. -/
def PathsOk (st : SplitState) : Prop :=
  headerKeyed st.path ∧ ∀ d ∈ st.acc, headerKeyed d.metadata

lemma closeState_keyed {st : SplitState} (h : PathsOk st) :
    ∀ d ∈ closeState st, headerKeyed d.metadata := by
  intro d hd
  unfold closeState at hd
  by_cases hc : st.cur.isEmpty
  · rw [if_pos hc] at hd
    exact h.2 d hd
  · rw [if_neg hc] at hd
    rcases List.mem_append.mp hd with hin | hin
    · exact h.2 d hin
    · have : d = ⟨joinLines st.cur, st.path⟩ := by simpa using hin
      rw [this]
      exact h.1

lemma splitStep_pathsOk {st : SplitState} (line : String) (h : PathsOk st) :
    PathsOk (splitStep st line) := by
  unfold splitStep
  cases hh : headingOf line with
  | none => exact ⟨h.1, h.2⟩
  | some lt =>
    have hb := headingOf_bounds (t := lt.2) (by rw [hh])
    exact ⟨headerKeyed_updatePath lt.2 h.1 hb.1 hb.2, closeState_keyed h⟩

lemma foldl_splitStep_pathsOk :
    ∀ (lines : List String) (st : SplitState),
      PathsOk st → PathsOk (lines.foldl splitStep st) := by
  intro lines
  induction lines with
  | nil => intro st h; exact h
  | cons l ls ih =>
    intro st h
    rw [List.foldl_cons]
    exact ih _ (splitStep_pathsOk l h)

lemma splitText_headerKeyed (s : String) :
    ∀ d ∈ splitText s, headerKeyed d.metadata := by
  unfold splitText
  exact closeState_keyed
    (foldl_splitStep_pathsOk (linesOf s) ⟨[], [], []⟩ ⟨by intro kv h; simp at h, by simp⟩)

/-! Helper lemmas about the assembly loop and the run accumulation. -/

lemma assembleFrom_length (docs : List Document) (url filename : String) :
    ∀ i : Nat, (assembleFrom docs url filename i).length = docs.length := by
  induction docs with
  | nil => intro i; rfl
  | cons d rest ih => intro i; simp [assembleFrom, ih]

lemma assembleFrom_getElem (docs : List Document) (url filename : String) :
    ∀ k i : Nat,
      (assembleFrom docs url filename k)[i]? =
        (docs[i]?).map (fun d => mkRecord d url filename (k + i)) := by
  induction docs with
  | nil => intro k i; simp [assembleFrom]
  | cons d rest ih =>
    intro k i
    cases i with
    | zero => simp [assembleFrom]
    | succ i =>
      simp only [assembleFrom, List.getElem?_cons_succ]
      rw [ih (k + 1) i]
      have harith : k + 1 + i = k + (i + 1) := by omega
      rw [harith]

lemma mem_assembleFrom {docs : List Document} {url filename : String} :
    ∀ {k : Nat} {rec : DocumentRecord}, rec ∈ assembleFrom docs url filename k →
      ∃ d ∈ docs, ∃ i, rec = mkRecord d url filename i := by
  induction docs with
  | nil => intro k rec h; simp [assembleFrom] at h
  | cons d rest ih =>
    intro k rec h
    rcases List.mem_cons.mp h with he | hin
    · exact ⟨d, List.mem_cons_self d rest, k, he⟩
    · rcases ih hin with ⟨d2, hd2, i, hi⟩
      exact ⟨d2, List.mem_cons_of_mem d hd2, i, hi⟩

lemma lookupKey_foldl_insert_ne (hp : List (String × String)) (k0 : String)
    (h : ∀ kv ∈ hp, kv.1 ≠ k0) :
    ∀ d : List (String × JValue),
      lookupKey k0 (hp.foldl (fun d kv => dictInsert d kv.1 (JValue.str kv.2)) d) =
        lookupKey k0 d := by
  induction hp with
  | nil => intro d; rfl
  | cons kv rest ih =>
    intro d
    rw [List.foldl_cons]
    rw [ih (fun x hx => h x (List.mem_cons_of_mem kv hx))]
    exact lookupKey_dictInsert_ne d kv.1 k0 (JValue.str kv.2)
      (h kv (List.mem_cons_self kv rest))

lemma lookupKey_mergeMeta_url (source url : String) (i : Nat)
    (hp : List (String × String)) (h : headerKeyed hp) :
    lookupKey ("url") (mergeMeta source url i hp) = some (JValue.str url) := by
  unfold mergeMeta
  rw [lookupKey_foldl_insert_ne hp ("url") ?keys (metaBase source url i)]
  · simp [metaBase, lookupKey]
  · intro kv hkv
    rcases h kv hkv with ⟨j, _, hj7, hkey⟩
    rw [hkey]
    exact headerKey_ne_url j hj7

lemma foldl_append_acc {α β : Type} (g : α → List β) :
    ∀ (xs : List α) (acc : List β),
      xs.foldl (fun a f => a ++ g f) acc = acc ++ (xs.map g).flatten := by
  intro xs
  induction xs with
  | nil => intro acc; simp
  | cons x rest ih => intro acc; simp [List.foldl_cons, ih]

lemma allDocuments_eq_flatten (env : Env) (patterns : List String)
    (files : List HFile) :
    allDocuments env patterns files =
      (files.map (process_html_file env patterns)).flatten := by
  unfold allDocuments
  simpa using foldl_append_acc (process_html_file env patterns) files []

/-! Spec-side descriptions of the URL extraction strategies (spec section
4.4), to be compared with the source translation extract_page_url_soup. -/

/-- Strategy 1 of the spec: the href of a link with rel canonical, when it
is present and nonempty. -/
def strat_canonical (doc : Soup) : Option String :=
  match (findForest isCanonicalLink doc).bind (fun n => n.attr ("href")) with
  | some h => if h = "" then none else some h
  | none => none

/-- Strategy 2 of the spec: the content of a meta with property og:url,
when it is present and nonempty. -/
def strat_og (doc : Soup) : Option String :=
  match (findForest isOgUrlMeta doc).bind (fun n => n.attr ("content")) with
  | some c => if c = "" then none else some c
  | none => none

/-- First href of a list that starts with http, mapped to scheme and host. -/
def strat_anchor_list : List String → Option String
  | [] => none
  | h :: rest =>
    if pyStartsWith h ("http") then
      some ((schemeNetloc h).1 ++ "://" ++ (schemeNetloc h).2)
    else strat_anchor_list rest

/-- Strategy 3 of the spec: scheme and host of the first anchor href that
starts with http. -/
def strat_anchor (doc : Soup) : Option String :=
  strat_anchor_list (anchorHrefsForest doc)

/-- The four strategies of the spec tried in order, first success winning,
with the empty string as strategy 4. -/
def strategyCascade (doc : Soup) : String :=
  match strat_canonical doc with
  | some u => u
  | none =>
    match strat_og doc with
    | some u => u
    | none =>
      match strat_anchor doc with
      | some u => u
      | none => ""

lemma fromAnchors_matches (l : List String) :
    fromAnchors l = (strat_anchor_list l).getD "" := by
  induction l with
  | nil => rfl
  | cons h rest ih =>
    by_cases hh : pyStartsWith h ("http")
    · rw [fromAnchors, if_pos hh, strat_anchor_list, if_pos hh]
      rfl
    · rw [fromAnchors, if_neg hh, strat_anchor_list, if_neg hh, ih]

lemma extract_eq_cascade (doc : Soup) :
    extract_page_url_soup doc = strategyCascade doc := by
  have hanchor : fromAnchors (anchorHrefsForest doc) =
      (match strat_anchor doc with
       | some u => u
       | none => "") := by
    rw [fromAnchors_matches]
    unfold strat_anchor
    cases strat_anchor_list (anchorHrefsForest doc) <;> rfl
  have hog : (match (findForest isOgUrlMeta doc).bind (fun n => n.attr ("content")) with
      | some c => if c ≠ "" then c else fromAnchors (anchorHrefsForest doc)
      | none => fromAnchors (anchorHrefsForest doc)) =
      (match strat_og doc with
       | some u => u
       | none =>
         match strat_anchor doc with
         | some u => u
         | none => "") := by
    unfold strat_og
    cases ho : (findForest isOgUrlMeta doc).bind (fun n => n.attr ("content")) with
    | some c =>
      by_cases hcc : c = ""
      · subst hcc
        simpa using hanchor
      · simp [hcc]
    | none => simpa using hanchor
  unfold extract_page_url_soup strategyCascade strat_canonical
  cases hc : (findForest isCanonicalLink doc).bind (fun n => n.attr ("href")) with
  | some h =>
    by_cases hh : h = ""
    · subst hh
      simpa using hog
    · simp only []
      rw [if_pos (by simpa using hh), if_neg hh]
  | none => simpa using hog

/-! Inversion of the per-file pipeline, used for the URL independence
property. -/

lemma mem_process_url {env : Env} {patterns : List String} {file : HFile}
    {rec : DocumentRecord} (h : rec ∈ process_html_file env patterns file) :
    ∃ content u, file.read = Except.ok content ∧
      extract_page_url env content = Except.ok u ∧
      lookupKey ("url") rec.metadata = some (JValue.str u) := by
  unfold process_html_file at h
  cases hres : process_result env patterns file with
  | error e => rw [hres] at h; simp at h
  | ok docs =>
    rw [hres] at h
    dsimp only [] at h
    unfold process_result at hres
    cases hr : file.read with
    | error e => rw [hr] at hres; simp at hres
    | ok content =>
      rw [hr] at hres
      dsimp only [] at hres
      cases he : extract_page_url env content with
      | error e => rw [he] at hres; simp at hres
      | ok u =>
        rw [he] at hres
        dsimp only [] at hres
        cases hn : noise_filter env patterns content with
        | error e => rw [hn] at hres; simp at hres
        | ok clean_html =>
          rw [hn] at hres
          dsimp only [] at hres
          rw [Except.ok.injEq] at hres
          rw [← hres] at h
          unfold markdown_to_json at h
          dsimp only [] at h
          rcases mem_assembleFrom h with ⟨d, hd, i, hrec⟩
          refine ⟨content, u, rfl, he, ?_⟩
          rw [hrec]
          exact lookupKey_mergeMeta_url (stem file.name) u i d.metadata
            (splitText_headerKeyed _ d hd)

/-! Concrete instances used by the claim theorems: a minimal oracle set for
which the whole pipeline evaluates, the two files whose names differ only
in extension, an everything-fails parser, and sample documents. -/

/-- Oracles for which parsing yields a single text node, serialization
restores it, pandoc is the identity, and every regex is rejected. -/
def idEnv : Env :=
  { parse := fun s => Except.ok [Node.text s]
    render := fun soup =>
      match soup with
      | [Node.text s] => s
      | _ => ""
    pandoc := fun s => Except.ok s
    simple_md := id
    re_sub := fun _ _ _ => none }

/-- Two input files whose names differ only in extension, as discovered by
the glob over html then htm. -/
def exFiles : List HFile :=
  [⟨"a.html", Except.ok ("hello")⟩, ⟨"a.htm", Except.ok ("world")⟩]

/-- Parsed document holding both a canonical link and a conflicting og:url
meta, plus an absolute anchor. -/
def exConflictDoc : Soup :=
  [Node.element ("html") []
    [Node.element ("head") []
      [Node.element ("meta")
        [("property", "og:url"), ("content", "https://evil.test/other")] [],
       Node.element ("link")
        [("rel", "canonical"), ("href", "https://x.test/page")] []],
     Node.element ("body") []
      [Node.element ("a") [("href", "https://a.test/b")] [Node.text ("link")]]]]

/-- Oracles whose parser always raises. -/
def parseFailEnv : Env :=
  { parse := fun _ => Except.error ("parse failure")
    render := fun _ => ""
    pandoc := fun s => Except.ok s
    simple_md := id
    re_sub := fun _ _ _ => none }

/-- Regex oracle with one pattern that does not compile (an unclosed
bracket) and one valid pattern deleting the substring ab. -/
def sampleReSub : ReSub := fun p _ t =>
  if p = "[" then none
  else if p = "ab" ∧ t = "XabY" then some ("XY")
  else some t

/-- Oracles whose parser returns the conflict document for any input. -/
def urlEnv : Env :=
  { parse := fun _ => Except.ok exConflictDoc
    render := fun _ => "body"
    pandoc := fun s => Except.ok s
    simple_md := id
    re_sub := fun _ _ t => some t }

/-- One readable input file for the URL independence witness. -/
def wFile : HFile := ⟨"w.html", Except.ok ("raw")⟩

/-- One file whose read raises an I/O error. -/
def badFile : HFile := ⟨"b.html", Except.error ("io error")⟩

/-! Claim theorems. -/

/-- C1: the claim states that all DocumentRecord id values of a run are
pairwise distinct, even for input sets holding two files whose names differ
only in extension (html versus htm) and therefore share a stem.  The code
derives every id from the file stem, so the run over a.html and a.htm
produces the id a_0 twice: evaluation of the whole pipeline at this failing
input shows the duplicate, refuting pairwise distinctness. -/
theorem c1_duplicate_ids_on_shared_stem :
    (allDocuments idEnv [] exFiles).map DocumentRecord.id = ["a_0", "a_0"] ∧
    ¬ ((allDocuments idEnv [] exFiles).map DocumentRecord.id).Pairwise
        (fun a b => a ≠ b) := by
  constructor
  · rfl
  · decide

/-- C2: page URL extraction tries exactly four strategies in order, the
canonical link href, the og:url meta content, scheme and host of the first
anchor href starting with http, and the empty string, returning the result
of the first strategy that succeeds and never attempting a later one once
one succeeds; the source translation equals the spec cascade, a canonical
success fixes the result, and on the document holding both a canonical link
and a conflicting og:url meta the canonical href wins. -/
theorem c2_url_strategy_order :
    (∀ doc : Soup, extract_page_url_soup doc = strategyCascade doc) ∧
    (∀ (doc : Soup) (u : String), strat_canonical doc = some u →
      extract_page_url_soup doc = u) ∧
    extract_page_url_soup exConflictDoc = "https://x.test/page" := by
  refine ⟨extract_eq_cascade, ?_, by decide⟩
  intro doc u hc
  rw [extract_eq_cascade]
  unfold strategyCascade
  rw [hc]

/-- C2 witness: the first strategy succeeds on the conflict document and
the theorem yields the canonical href. -/
theorem c2_url_strategy_order_witness :
    strat_canonical exConflictDoc = some ("https://x.test/page") ∧
    extract_page_url_soup exConflictDoc = "https://x.test/page" :=
  ⟨by decide, c2_url_strategy_order.2.1 exConflictDoc ("https://x.test/page") (by decide)⟩

/-- C3: chunking of any non-empty structured text yields at least one
section; a text with no recognizable heading line yields exactly one
section holding the entire text with an empty heading path; and when the
splitting mechanism raises, markdown_to_json falls back to the same
single-section whole-document form instead of failing the file. -/
theorem c3_chunking_total :
    (∀ s : String, s ≠ "" → splitText s ≠ []) ∧
    (∀ s : String, (∀ line ∈ linesOf s, headingOf line = none) →
      splitText s = [⟨s, []⟩]) ∧
    (∀ markdown_content url filename e : String,
      markdown_to_json (Except.error e) markdown_content url filename =
        [⟨filename ++ "_" ++ toString 0, strip markdown_content,
          metaBase filename url 0⟩]) := by
  refine ⟨fun s _ => splitText_ne_nil s, fun s h => splitText_no_heading s h, ?_⟩
  intro md url fn e
  rfl

/-- C3 witness: a heading-free text gives one whole-document section, and a
failed split falls back to the same form. -/
theorem c3_chunking_total_witness :
    splitText ("hello") ≠ [] ∧
    splitText ("hello") = [⟨"hello", []⟩] ∧
    markdown_to_json (Except.error ("boom")) ("body text") ("u") ("f") =
      [⟨"f" ++ "_" ++ toString 0, strip ("body text"), metaBase ("f") ("u") 0⟩] :=
  ⟨c3_chunking_total.1 ("hello") (by decide),
   c3_chunking_total.2.1 ("hello") (by decide),
   c3_chunking_total.2.2 ("body text") ("u") ("f") ("boom")⟩

/-- C4: the pattern pass applies each noise pattern in file order as a
global replace-with-empty under the MULTILINE and DOTALL flags, each later
pattern operating on the output of the earlier ones; a pattern the engine
rejects is skipped without affecting later patterns, so a pattern list with
one malformed and one valid regex still has the valid one applied. -/
theorem c4_pattern_pass_order_and_skip :
    (∀ (re : ReSub) (p : String) (ps : List String) (txt : String),
      remove_pattern_noise re (p :: ps) txt =
        remove_pattern_noise re ps ((re p reFlags txt).getD txt)) ∧
    (∀ (re : ReSub) (p : String) (ps : List String) (txt : String),
      re p reFlags txt = none →
      remove_pattern_noise re (p :: ps) txt = remove_pattern_noise re ps txt) ∧
    sampleReSub ("[") reFlags ("XabY") = none ∧
    remove_pattern_noise sampleReSub ["[", "ab"] ("XabY") = "XY" := by
  refine ⟨?_, ?_, rfl, rfl⟩
  · intro re p ps txt
    unfold remove_pattern_noise
    rw [List.foldl_cons]
    cases hr : re p reFlags txt <;> simp [hr]
  · intro re p ps txt hr
    unfold remove_pattern_noise
    rw [List.foldl_cons]
    simp only [hr]

/-- C4 witness: the malformed bracket pattern is skipped and the valid
pattern is still applied to the text. -/
theorem c4_pattern_pass_order_and_skip_witness :
    remove_pattern_noise sampleReSub ["[", "ab"] ("XabY") =
      remove_pattern_noise sampleReSub ["ab"] ("XabY") :=
  c4_pattern_pass_order_and_skip.2.1 sampleReSub ("[") ["ab"] ("XabY") rfl

/-- C5: assembly produces one DocumentRecord per section in order, with id
built from the source name and the zero-based index, content trimmed,
metadata equal to the source, url and section_id base updated with every
heading-path binding under last-write-wins; a colliding heading-path key
overrides the base in place, and a section that is empty after trimming is
still emitted. -/
theorem c5_assembly_shape :
    (∀ (docs : List Document) (url filename : String),
      (assembleFrom docs url filename 0).length = docs.length) ∧
    (∀ (docs : List Document) (url filename : String) (i : Nat),
      (assembleFrom docs url filename 0)[i]? =
        (docs[i]?).map (fun d =>
          ⟨filename ++ "_" ++ toString i, strip d.page_content,
           mergeMeta filename url i d.metadata⟩)) ∧
    assembleFrom [⟨" x ", [("url", "OVERRIDE"), ("Header 1", "A")]⟩]
        ("realurl") ("f") 0 =
      [⟨"f_0", "x",
        [("source", JValue.str "f"), ("url", JValue.str "OVERRIDE"),
         ("section_id", JValue.num 0), ("Header 1", JValue.str "A")]⟩] ∧
    assembleFrom [⟨"   ", []⟩] ("u") ("f") 0 =
      [⟨"f_0", "", metaBase ("f") ("u") 0⟩] := by
  refine ⟨fun docs url fn => assembleFrom_length docs url fn 0, ?_, by decide, by decide⟩
  intro docs url fn i
  have h := assembleFrom_getElem docs url fn 0 i
  simpa [mkRecord] using h

/-- C6: after a heading at level L is processed, the heading path holds no
key of any level greater than L, while every key of a level less than L is
unchanged; and the two-level example text yields two sections whose heading
paths are Header 1 to A, then Header 1 to A with Header 2 to B. -/
theorem c6_heading_path_monotone :
    (∀ (path : List (String × String)) (L : Nat) (t : String),
      1 ≤ L → L < 7 →
      (∀ j, L < j → j < 7 →
        lookupKey (headerKey j) (updatePath path L t) = none) ∧
      (∀ j, 1 ≤ j → j < L →
        lookupKey (headerKey j) (updatePath path L t) =
          lookupKey (headerKey j) path)) ∧
    (splitText ("# A\n\ntext1\n\n## B\n\ntext2")).map Document.metadata =
      [[("Header 1", "A")], [("Header 1", "A"), ("Header 2", "B")]] := by
  constructor
  · intro path L t h1 h7
    exact ⟨fun j hLj hj7 => lookupKey_updatePath_deep path L t j hj7 hLj,
           fun j hj1 hjL => lookupKey_updatePath_shallow path L t j h7 hjL⟩
  · decide

/-- C6 witness: updating a path holding levels 3 and 1 with a level 2
heading clears the deeper level and keeps the shallower one. -/
theorem c6_heading_path_monotone_witness :
    lookupKey (headerKey 3)
        (updatePath [(headerKey 3, "old"), (headerKey 1, "top")] 2 ("new")) = none ∧
    lookupKey (headerKey 1)
        (updatePath [(headerKey 3, "old"), (headerKey 1, "top")] 2 ("new")) =
      lookupKey (headerKey 1) [(headerKey 3, "old"), (headerKey 1, "top")] :=
  ⟨(c6_heading_path_monotone.1 [(headerKey 3, "old"), (headerKey 1, "top")] 2
      ("new") (by decide) (by decide)).1 3 (by decide) (by decide),
   (c6_heading_path_monotone.1 [(headerKey 3, "old"), (headerKey 1, "top")] 2
      ("new") (by decide) (by decide)).2 1 (by decide) (by decide)⟩

/-- C7 counterexample: the claim states that on a parse error the Noise
Filter returns the unmodified input as its text result; with a parser that
raises, the filter composed as in the source propagates the error and does
not return the input. -/
theorem c7_parse_error_not_returned :
    noise_filter parseFailEnv [] ("<bad>") = Except.error ("parse failure") ∧
    noise_filter parseFailEnv [] ("<bad>") ≠ Except.ok ("<bad>") := by
  have h1 : noise_filter parseFailEnv [] ("<bad>") = Except.error ("parse failure") := rfl
  refine ⟨h1, ?_⟩
  rw [h1]
  intro hcontra
  exact Except.noConfusion hcontra

/-- C7 amended: the Noise Filter performs no parse-error recovery of its
own; a parse failure propagates out of it (the pattern pass itself is total
and skips invalid patterns), and the per-file driver catches the failure,
yielding zero records for that file instead of the unmodified input. -/
theorem c7_noise_filter_error_propagates :
    ∀ (env : Env) (patterns : List String) (html_content e name : String),
      env.parse html_content = Except.error e →
      noise_filter env patterns html_content = Except.error e ∧
      process_html_file env patterns ⟨name, Except.ok html_content⟩ = [] := by
  intro env ps html e name hp
  have hnf : noise_filter env ps html = Except.error e := by
    unfold noise_filter
    rw [hp]
    rfl
  have he : extract_page_url env html = Except.error e := by
    unfold extract_page_url
    rw [hp]
    rfl
  have hres : process_result env ps ⟨name, Except.ok html⟩ = Except.error e := by
    unfold process_result
    dsimp only []
    rw [he]
  refine ⟨hnf, ?_⟩
  unfold process_html_file
  rw [hres]

/-- C7 amended witness: with the failing parser the error propagates and
the file yields zero records. -/
theorem c7_noise_filter_error_propagates_witness :
    noise_filter parseFailEnv ["p"] ("x") = Except.error ("parse failure") ∧
    process_html_file parseFailEnv ["p"] ⟨"f.html", Except.ok ("x")⟩ = [] :=
  c7_noise_filter_error_propagates parseFailEnv ["p"] ("x") ("parse failure")
    ("f.html") rfl

/-- C8: any uncaught error while processing one file is recovered at run
level: that file contributes exactly zero records and the surrounding files
records are exactly those of the run without it. -/
theorem c8_file_failure_isolated :
    ∀ (env : Env) (patterns : List String) (f : HFile) (e : String)
      (fs1 fs2 : List HFile),
      process_result env patterns f = Except.error e →
      process_html_file env patterns f = [] ∧
      allDocuments env patterns (fs1 ++ f :: fs2) =
        allDocuments env patterns fs1 ++ allDocuments env patterns fs2 := by
  intro env ps f e fs1 fs2 h
  have hz : process_html_file env ps f = [] := by
    unfold process_html_file
    rw [h]
  refine ⟨hz, ?_⟩
  rw [allDocuments_eq_flatten, allDocuments_eq_flatten, allDocuments_eq_flatten]
  rw [List.map_append, List.map_cons, hz]
  simp

/-- C8 witness: a file whose read raises contributes zero records and the
good file before it is unaffected. -/
theorem c8_file_failure_isolated_witness :
    process_html_file idEnv [] badFile = [] ∧
    allDocuments idEnv [] ([⟨"a.html", Except.ok ("hello")⟩] ++ badFile :: []) =
      allDocuments idEnv [] [⟨"a.html", Except.ok ("hello")⟩] ++
        allDocuments idEnv [] [] :=
  c8_file_failure_isolated idEnv [] badFile ("io error")
    [⟨"a.html", Except.ok ("hello")⟩] [] rfl

/-- C9: with at least one discovered file the run output is a single array
holding the records of every processed file, ordered by file discovery
order and within each file by section order, emitted once with UTF-8
encoding, ensure_ascii disabled (non-ASCII preserved literally) and indent
2. -/
theorem c9_single_ordered_output :
    ∀ (env : Env) (patterns : List String) (files : List HFile),
      files ≠ [] →
      convert_all env patterns files =
        some ((files.map (process_html_file env patterns)).flatten,
          ⟨"utf-8", false, 2⟩) := by
  intro env ps files h
  cases files with
  | nil => exact absurd rfl h
  | cons f fs =>
    unfold convert_all
    rw [allDocuments_eq_flatten]
    rfl

/-- C9 witness: the two-file run produces the flattened record list with
the dump arguments of the source. -/
theorem c9_single_ordered_output_witness :
    convert_all idEnv [] exFiles =
      some ((exFiles.map (process_html_file idEnv [])).flatten,
        ⟨"utf-8", false, 2⟩) :=
  c9_single_ordered_output idEnv [] exFiles (by simp [exFiles])

/-- C10: the page URL of every record of a file is the one extracted from
the raw HTML content before any noise pattern is applied, hence two runs
that differ only in the noise pattern set give every record of the same
file the same metadata url. -/
theorem c10_url_from_raw_content :
    (∀ (env : Env) (patterns : List String) (file : HFile)
       (content u : String) (rec : DocumentRecord),
      file.read = Except.ok content →
      extract_page_url env content = Except.ok u →
      rec ∈ process_html_file env patterns file →
      lookupKey ("url") rec.metadata = some (JValue.str u)) ∧
    (∀ (env : Env) (ps1 ps2 : List String) (file : HFile)
       (r1 r2 : DocumentRecord),
      r1 ∈ process_html_file env ps1 file →
      r2 ∈ process_html_file env ps2 file →
      lookupKey ("url") r1.metadata = lookupKey ("url") r2.metadata) := by
  constructor
  · intro env ps file content u rec hr he hm
    rcases mem_process_url hm with ⟨c2, u2, hr2, he2, hl⟩
    rw [hr] at hr2
    rw [Except.ok.injEq] at hr2
    rw [← hr2] at he2
    rw [he] at he2
    rw [Except.ok.injEq] at he2
    rw [← he2] at hl
    exact hl
  · intro env ps1 ps2 file r1 r2 h1 h2
    rcases mem_process_url h1 with ⟨ca, ua, hra, hea, hla⟩
    rcases mem_process_url h2 with ⟨cb, ub, hrb, heb, hlb⟩
    rw [hra] at hrb
    rw [Except.ok.injEq] at hrb
    rw [← hrb] at heb
    rw [hea] at heb
    rw [Except.ok.injEq] at heb
    rw [← heb] at hlb
    rw [hla, hlb]

/-- C10 witness: on a concrete run the record of the file carries exactly
the URL extracted from the raw content. -/
theorem c10_url_from_raw_content_witness :
    lookupKey ("url")
        (DocumentRecord.mk ("w_0") ("body")
          (metaBase ("w") ("https://x.test/page") 0)).metadata =
      some (JValue.str ("https://x.test/page")) :=
  c10_url_from_raw_content.1 urlEnv ["p"] wFile ("raw") ("https://x.test/page")
    (DocumentRecord.mk ("w_0") ("body")
      (metaBase ("w") ("https://x.test/page") 0)) rfl rfl (by decide)

end HtmlToJson
